import Mathlib

/-!
# Verification of the alchemy service registry

A shallow embedding of the consistent-hashing service registry
(`pkg/cluster/registry/real.go`), its event adapter
(`pkg/registry/api.go`) and the peer-info tag codec
(`pkg/cluster/members/members.go`), together with proofs of the
spec's testable properties.

Go maps are modelled as association lists (`List (String × α)`) with
first-occurrence lookup, or as functions `String → Option α` where the
code never iterates the map.  Map iteration order, which Go leaves
unspecified, is determinised to list order.
-/

set_option maxHeartbeats 1000000

namespace Alchemy

/-! ## Association-list primitives (Go map operations) -/

/-- First-occurrence lookup in an association list, the model of a Go
map read `v, ok := m[k]`. -/
def alookup {α : Type} : List (String × α) → String → Option α
  | [], _ => none
  | (k', v) :: t, k => if k' = k then some v else alookup t k

/-- Go map write `m[k] = v`: replace the (first) binding of `k`, or
append a fresh binding. -/
def upsert {α : Type} : List (String × α) → String → α → List (String × α)
  | [], k, v => [(k, v)]
  | (k', v') :: t, k, v =>
    if k' = k then (k', v) :: t else (k', v') :: upsert t k v

/-- Go `delete(m, k)`: drop every binding of `k`. -/
def adelete {α : Type} (l : List (String × α)) (k : String) : List (String × α) :=
  l.filter (fun p => p.1 ≠ k)

/-- Go `m[k] = append(m[k], vs...)`: extend the binding of `k` with
`vs`, creating it when absent. -/
def upsertAppend {α : Type} : List (String × List α) → String → List α → List (String × List α)
  | [], k, vs => [(k, vs)]
  | (k', v') :: t, k, vs =>
    if k' = k then (k', v' ++ vs) :: t else (k', v') :: upsertAppend t k vs

/-! ## Sorting of ring positions

The hash ring walks its virtual positions in ascending order; ties
between equal positions are broken by address so that the walk order
is total and reproducible (spec §4.1).  Insertion sort over the
strict-then-tie-break comparison realises that order. -/

/-- Lexicographic strict order on character lists (by code point). -/
def strLtb : List Char → List Char → Bool
  | [], [] => false
  | [], _ :: _ => true
  | _ :: _, [] => false
  | c :: cs, d :: ds =>
    if c.toNat < d.toNat then true
    else if d.toNat < c.toNat then false
    else strLtb cs ds

/-- Walk order on `(position, address)` pairs: ascending position,
ties broken by address. -/
def ringLe (p q : Nat × String) : Bool :=
  p.1 < q.1 || (p.1 = q.1 && !(strLtb q.2.data p.2.data))

/-- Insert into a sorted list of ring positions. -/
def insertPos (x : Nat × String) : List (Nat × String) → List (Nat × String)
  | [] => [x]
  | y :: ys => if ringLe x y then x :: y :: ys else y :: insertPos x ys

/-- Sort ring positions into walk order. -/
def sortPos : List (Nat × String) → List (Nat × String)
  | [] => []
  | x :: xs => insertPos x (sortPos xs)

/-! ## Hash ring

Modelled from the spec: the package
`github.com/SimonRichardson/alchemy/pkg/cluster/hashring` is not among
the provided sources; this model follows spec §4.1.  `hashFn` maps a
byte sequence to a 32-bit position; each address owns
`replicationFactor` virtual positions derived by appending the virtual
index to the address before hashing.  `Add` is a no-op returning
`false` on a present address, `Remove` deletes all virtual positions,
and `Walk` visits every virtual position in ascending hash order
(ties broken by address), aborting on the first visitor error. -/
structure HashRing where
  hashFn : String → Nat
  replicationFactor : Nat
  members : List String

namespace HashRing

/-- Modelled from the spec: `hashring.New(hashFn, replicationFactor)`
creates an empty ring. -/
def new (hashFn : String → Nat) (replicationFactor : Nat) : HashRing :=
  { hashFn := hashFn, replicationFactor := replicationFactor, members := [] }

/-- The 32-bit virtual positions owned by `addr`: the hashes of
`addr` with each virtual index appended. -/
def positions (r : HashRing) (addr : String) : List Nat :=
  (List.range r.replicationFactor).map
    (fun i => r.hashFn (addr ++ toString i) % 4294967296)

/-- All `(position, address)` pairs of the ring, in walk order. -/
def entries (r : HashRing) : List (Nat × String) :=
  sortPos ((r.members.map (fun a => (r.positions a).map (fun h => (h, a)))).flatten)

/-- Modelled from the spec: `HashRing.Add` inserts the address's
virtual positions; re-adding a present address is a no-op returning
`false`. -/
def add (r : HashRing) (addr : String) : HashRing × Bool :=
  if addr ∈ r.members then (r, false)
  else ({ r with members := addr :: r.members }, true)

/-- Modelled from the spec: `HashRing.Remove` deletes every virtual
position of the address and reports whether it was present. -/
def remove (r : HashRing) (addr : String) : HashRing × Bool :=
  ({ r with members := r.members.filter (fun a => a ≠ addr) }, decide (addr ∈ r.members))

/-- Modelled from the spec: `HashRing.Contains` is a membership test
independent of the virtual-node count. -/
def contains (r : HashRing) (addr : String) : Bool :=
  decide (addr ∈ r.members)

/-- One short-circuiting pass of a stateful visitor over a list of
ring entries (the hash is passed to the visitor as a string, as in
the registry's `Walk` callback). -/
def walkList {σ : Type} (f : σ → String → String → Except String σ)
    : List (Nat × String) → σ → Except String σ
  | [], acc => Except.ok acc
  | (h, a) :: t, acc =>
    match f acc (toString h) a with
    | Except.ok acc' => walkList f t acc'
    | Except.error e => Except.error e

/-- Modelled from the spec: `HashRing.Walk` visits every virtual
position in ascending hash order exactly once and aborts with the
first non-nil visitor error.  The visitor threads a state `σ` so that
the registry's hash-collecting closure can be expressed. -/
def walk {σ : Type} (r : HashRing) (f : σ → String → String → Except String σ) (init : σ) :
    Except String σ :=
  walkList f r.entries init

end HashRing

/-! ## Registry data model (`pkg/cluster/registry/real.go`) -/

/-- `registry.Key` (the spec's Entry): a named, categorised, tagged
network address.  The Go interface's four capabilities become four
fields. -/
structure Key where
  name : String
  type : String
  address : String
  tags : List (String × String)
deriving DecidableEq

/-- The state of `registry.real`: one lazily-created hash ring per
category, and the `address → (name → Key)` index.  The maps are never
iterated by the code (only read and written pointwise), so they are
modelled as functions. -/
structure RegistryState where
  hashRings : String → Option HashRing
  keys : String → Option (List (String × Key))
  hashFn : String → Nat
  replicationFactor : Nat

/-- `registry.New`: empty rings, empty index. -/
def RegistryState.new (hashFn : String → Nat) (replicationFactor : Nat) : RegistryState :=
  { hashRings := fun _ => none
  , keys := fun _ => none
  , hashFn := hashFn
  , replicationFactor := replicationFactor }

namespace RegistryState

/-- `real.Add`: create the category's ring on first use, add the
address to it, and unconditionally write `keys[addr][name] = key`;
returns the ring's fresh-address result. -/
def addKey (r : RegistryState) (k : Key) : RegistryState × Bool :=
  let ring0 :=
    match r.hashRings k.type with
    | some ring => ring
    | none => HashRing.new r.hashFn r.replicationFactor
  let res := ring0.add k.address
  let inner :=
    match r.keys k.address with
    | some m => m
    | none => []
  ({ r with
      hashRings := fun t => if t = k.type then some res.1 else r.hashRings t
    , keys := fun a => if a = k.address then some (upsert inner k.name k) else r.keys a }
  , res.2)

/-- `real.Remove`: drop the whole address from the category's ring
(when the ring exists), delete `keys[addr][name]` (when the inner map
exists), and return `true` unconditionally. -/
def removeKey (r : RegistryState) (k : Key) : RegistryState × Bool :=
  let rings' :=
    match r.hashRings k.type with
    | some ring => fun t => if t = k.type then some (ring.remove k.address).1 else r.hashRings t
    | none => r.hashRings
  let keys' :=
    match r.keys k.address with
    | some m => fun a => if a = k.address then some (adelete m k.name) else r.keys a
    | none => r.keys
  ({ r with hashRings := rings', keys := keys' }, true)

/-- `real.Update`: require the category's ring to exist and contain
the address, and the index to already hold an entry for the name;
then replace that entry.  Any missing precondition returns `false`
with no mutation. -/
def updateKey (r : RegistryState) (k : Key) : RegistryState × Bool :=
  match r.hashRings k.type with
  | none => (r, false)
  | some ring =>
    if ring.contains k.address then
      match r.keys k.address with
      | none => (r, false)
      | some m =>
        match alookup m k.name with
        | none => (r, false)
        | some _ =>
          ({ r with keys := fun a => if a = k.address then some (upsert m k.name k) else r.keys a }
          , true)
    else (r, false)

/-- `real.getKeysByAddress`: flatten the values of `keys[addr]`. -/
def getKeysByAddress (r : RegistryState) (addr : String) : List Key :=
  match r.keys addr with
  | some m => m.map Prod.snd
  | none => []

end RegistryState

/-! ## `real.Info` -/

/-- The `registry.Info` snapshot: `Hashes` (position string → address)
and `Keys` (address → flattened entries). -/
structure Info where
  hashes : List (String × String)
  keys : List (String × List Key)
deriving DecidableEq

/-- The empty `Info{}` returned on every not-found path. -/
def Info.empty : Info := { hashes := [], keys := [] }

namespace RegistryState

/-- The visitor `real.Info` passes to `Walk`: record
`hashes[hash] = addr` and return nil. -/
def defaultVisitor :
    List (String × String) → String → String → Except String (List (String × String)) :=
  fun m h a => Except.ok (upsert m h a)

/-- The second loop of `real.Info`: for each entry of the `hashes`
map, append the address's flattened index entries when non-empty. -/
def buildKeys (r : RegistryState) (hashes : List (String × String)) : List (String × List Key) :=
  hashes.foldl
    (fun ks p =>
      let k := r.getKeysByAddress p.2
      if 0 < k.length then upsertAppend ks p.2 k else ks)
    []

/-- `real.Info` with the walk visitor abstracted (the code fixes it to
`defaultVisitor`; the abstraction shows what a fallible visitor would
observe): not-found when the category has no ring or the walk errors,
otherwise the collected hashes and flattened keys. -/
def infoWith (r : RegistryState) (s : String)
    (f : List (String × String) → String → String → Except String (List (String × String))) :
    Info × Bool :=
  match r.hashRings s with
  | none => (Info.empty, false)
  | some ring =>
    match ring.walk f [] with
    | Except.error _ => (Info.empty, false)
    | Except.ok hashes => ({ hashes := hashes, keys := buildKeys r hashes }, true)

/-- `real.Info` as written: the walk visitor records every
`(hash, address)` pair and never errors. -/
def info (r : RegistryState) (s : String) : Info × Bool :=
  infoWith r s defaultVisitor

/-- The hash map collected by `info`'s walk, as a function of the ring. -/
def collectHashes (ring : HashRing) : List (String × String) :=
  ring.entries.foldl (fun m p => upsert m (toString p.1) p.2) []

/-- How often `addr` occurs as a value of the hash map. -/
def countAddr (hl : List (String × String)) (addr : String) : Nat :=
  (hl.filter (fun p => p.2 = addr)).length

end RegistryState

/-! ## Event adapter (`pkg/registry/api.go`) -/

/-- Modelled from the spec: the `members.Event` hierarchy is declared
outside the provided sources.  Member-event batches are tagged
joined / left / updated, with further member-event kinds and whole
non-member events possible, both ignored by the adapter. -/
inductive MemberEventType where
  | joined
  | left
  | updated
  | otherKind
deriving DecidableEq

/-- A member as seen through the `members.Member` capability set. -/
structure Member where
  name : String
  address : String
  peerType : String
  tags : List (String × String)
deriving DecidableEq

/-- Modelled from the spec: an event is either a member-event batch
(`members.MemberEvent`, whose `Type()` is `EventMember`) or some other
event kind. -/
inductive Event where
  | memberEvent (ty : MemberEventType) (ms : List Member)
  | nonMemberEvent
deriving DecidableEq

/-- `registry.NewMemberKey`: wrap a member as a registry key
(`Type()` is the member's peer type rendered as a string). -/
def memberToKey (m : Member) : Key :=
  { name := m.name, type := m.peerType, address := m.address, tags := m.tags }

/-- `membersToKeys`: wrap each member of the batch, preserving order. -/
def membersToKeys (ms : List Member) : List Key :=
  ms.map memberToKey

/-- The registry call selected per member-event kind in
`eventAdapter.HandleEvent`: joined maps to Add, left to Remove,
updated to Update, anything else to no call. -/
def dispatchFn : MemberEventType → Option (RegistryState → Key → RegistryState × Bool)
  | MemberEventType.joined => some RegistryState.addKey
  | MemberEventType.left => some RegistryState.removeKey
  | MemberEventType.updated => some RegistryState.updateKey
  | MemberEventType.otherKind => none

/-- `eventAdapter.HandleEvent`: for a member event, apply the selected
registry call to each member of the batch in order, discarding each
boolean result; return nil in every case. -/
def handleEvent (r : RegistryState) (ev : Event) : RegistryState × Option String :=
  match ev with
  | Event.nonMemberEvent => (r, none)
  | Event.memberEvent ty ms =>
    match dispatchFn ty with
    | none => (r, none)
    | some f => ((membersToKeys ms).foldl (fun st k => (f st k).1) r, none)

/-! ## Peer-info tag codec (`pkg/cluster/members/members.go`)

`strconv.Itoa` / `strconv.Atoi` are modelled as decimal printing and
parsing over unbounded integers (Go's parse of a printed in-range
`int` never overflows). -/

/-- The decimal digit character for `n < 10`. -/
def digitChar (n : Nat) : Char := Char.ofNat (48 + n)

/-- The numeric value of a decimal digit character. -/
def digitVal (c : Char) : Option Nat :=
  if 48 ≤ c.toNat ∧ c.toNat ≤ 57 then some (c.toNat - 48) else none

/-- The decimal digits of a natural number, most significant first. -/
def natToDigits (n : Nat) : List Char :=
  if _h : n < 10 then [digitChar n]
  else natToDigits (n / 10) ++ [digitChar (n % 10)]
termination_by n
decreasing_by exact Nat.div_lt_self (by omega) (by omega)

/-- `strconv.Itoa`: minus sign for negatives, then decimal digits. -/
def itoa (i : Int) : String :=
  if i < 0 then String.mk ('-' :: natToDigits (-i).toNat)
  else String.mk (natToDigits i.toNat)

/-- The digit-consuming loop of `strconv.Atoi`. -/
def parseDigitsAux : Nat → List Char → Option Nat
  | acc, [] => some acc
  | acc, c :: cs =>
    match digitVal c with
    | some d => parseDigitsAux (10 * acc + d) cs
    | none => none

/-- Parse a non-empty run of decimal digits. -/
def parseDigits : List Char → Option Nat
  | [] => none
  | cs => parseDigitsAux 0 cs

/-- `strconv.Atoi` on the character list: an optional single sign
followed by at least one digit. -/
def atoiList : List Char → Except String Int
  | [] => Except.error "invalid syntax"
  | c :: cs =>
    if c = '-' then
      match parseDigits cs with
      | some n => Except.ok (-(n : Int))
      | none => Except.error "invalid syntax"
    else if c = '+' then
      match parseDigits cs with
      | some n => Except.ok (n : Int)
      | none => Except.error "invalid syntax"
    else
      match parseDigits (c :: cs) with
      | some n => Except.ok (n : Int)
      | none => Except.error "invalid syntax"

/-- `strconv.Atoi`. -/
def atoi (s : String) : Except String Int := atoiList s.data

/-- The accumulator after consuming the digits of `n`. -/
def accDigits (acc n : Nat) : Nat :=
  if n < 10 then 10 * acc + n
  else 10 * accDigits acc (n / 10) + n % 10
termination_by n
decreasing_by exact Nat.div_lt_self (by omega) (by omega)

/-- `members.PeerType`: a string-typed peer category. -/
structure PeerType where
  val : String
deriving DecidableEq

/-- `members.PeerInfo`: name, peer type, API address and port. -/
structure PeerInfo where
  name : String
  peerType : PeerType
  apiAddr : String
  apiPort : Int
deriving DecidableEq

/-- Modelled from the spec: the constant `members.PeerTypeTag` is
declared outside the provided sources; it is the tag key under which
the peer type is stored, distinct from the other three tag keys. -/
def PeerTypeTag : String := "peer_type"

/-- `encodePeerInfoTag`: the four-entry tag map. -/
def encodePeerInfoTag (info : PeerInfo) : List (String × String) :=
  [("name", info.name), (PeerTypeTag, info.peerType.val), ("api_addr", info.apiAddr),
    ("api_port", itoa info.apiPort)]

/-- `decodePeerInfoTag`: read the four tags back, parsing the port;
the first missing tag or a failing parse aborts with an error. -/
def decodePeerInfoTag (m : List (String × String)) : Except String PeerInfo :=
  match alookup m "name" with
  | none => Except.error "missing name"
  | some name =>
    match alookup m PeerTypeTag with
    | none => Except.error ("missing " ++ PeerTypeTag)
    | some peerType =>
      match alookup m "api_port" with
      | none => Except.error "missing api_port"
      | some apiPort =>
        match atoi apiPort with
        | Except.error e => Except.error e
        | Except.ok port =>
          match alookup m "api_addr" with
          | none => Except.error "missing api_addr"
          | some apiAddr =>
            Except.ok
              { name := name, peerType := { val := peerType }, apiAddr := apiAddr
              , apiPort := port }

/-! ## Operation sequences (for the category-isolation claim) -/

/-- One of the three registry mutations. -/
inductive RegOp where
  | addOp
  | removeOp
  | updateOp
deriving DecidableEq

/-- Apply one mutation, discarding its boolean result. -/
def applyOp (r : RegistryState) (p : RegOp × Key) : RegistryState :=
  match p.1 with
  | RegOp.addOp => (r.addKey p.2).1
  | RegOp.removeOp => (r.removeKey p.2).1
  | RegOp.updateOp => (r.updateKey p.2).1

/-- Apply a sequence of mutations in order. -/
def applyOps (r : RegistryState) (ops : List (RegOp × Key)) : RegistryState :=
  ops.foldl applyOp r

/-- A hash ring is collision-free when virtual positions rendered to
the same hash string always belong to the same address. -/
def HashRing.collisionFree (r : HashRing) : Prop :=
  ∀ p ∈ r.entries, ∀ q ∈ r.entries, toString p.1 = toString q.1 → p.2 = q.2

instance (r : HashRing) : Decidable r.collisionFree := by
  unfold HashRing.collisionFree
  infer_instance

/-! ## Concrete scenario states -/

/-- A simple injective-enough hash for the concrete scenarios. -/
def hashDemo : String → Nat := fun s => s.data.foldl (fun acc c => acc * 31 + c.toNat) 7

/-- The spec scenario's entry A. -/
def entryA : Key := { name := "nodeA", type := "worker", address := "10.0.0.1:7000", tags := [] }

/-- The spec scenario's entry B. -/
def entryB : Key := { name := "nodeB", type := "worker", address := "10.0.0.2:7000", tags := [] }

/-- The spec's R=2 scenario after adding A then B. -/
def demoState : RegistryState :=
  (((RegistryState.new hashDemo 2).addKey entryA).1.addKey entryB).1

/-- The ring `demoState` holds for category worker. -/
def demoRing : HashRing :=
  { hashFn := hashDemo, replicationFactor := 2
  , members := ["10.0.0.2:7000", "10.0.0.1:7000"] }

/-- First entry of the colliding-hash scenario. -/
def collideKeyB : Key := { name := "n1", type := "c", address := "b", tags := [] }

/-- Second entry of the colliding-hash scenario. -/
def collideKeyA : Key := { name := "n2", type := "c", address := "a", tags := [] }

/-- Two addresses under a constant hash function: every virtual
position collides. -/
def collideState : RegistryState :=
  (((RegistryState.new (fun _ => 0) 1).addKey collideKeyB).1.addKey collideKeyA).1

/-- Category-b entry at address x. -/
def isoKeyB : Key := { name := "n", type := "b", address := "x", tags := [] }

/-- Category-a entry sharing address x and name n with `isoKeyB`. -/
def isoKeyA : Key := { name := "n", type := "a", address := "x", tags := [] }

/-- Registry with only `isoKeyB` added. -/
def isoBase : RegistryState := ((RegistryState.new (fun _ => 0) 1).addKey isoKeyB).1

/-- The ring `isoBase` holds for category b. -/
def isoRing : HashRing := { hashFn := fun _ => 0, replicationFactor := 1, members := ["x"] }

/-- The empty registry used by failure-path witnesses. -/
def emptyReg : RegistryState := RegistryState.new (fun _ => 0) 1

/-! ## Theorems -/

@[simp] theorem alookup_nil {α : Type} (k : String) : alookup ([] : List (String × α)) k = none := rfl

theorem alookup_cons {α : Type} (k' k : String) (v : α) (t : List (String × α)) :
    alookup ((k', v) :: t) k = if k' = k then some v else alookup t k := rfl

@[simp] theorem alookup_upsert_self {α : Type} (l : List (String × α)) (k : String) (v : α) :
    alookup (upsert l k v) k = some v := by
  induction l with
  | nil => simp [upsert, alookup]
  | cons p t ih =>
    obtain ⟨k', v'⟩ := p
    by_cases h : k' = k
    · simp [upsert, h, alookup]
    · simp [upsert, h, alookup, ih]

@[simp] theorem alookup_upsert_other {α : Type} (l : List (String × α)) (k k₀ : String) (v : α)
    (hne : k ≠ k₀) : alookup (upsert l k v) k₀ = alookup l k₀ := by
  induction l with
  | nil => simp [upsert, alookup, hne]
  | cons p t ih =>
    obtain ⟨k', v'⟩ := p
    by_cases h : k' = k
    · subst h
      simp [upsert, alookup, hne]
    · simp [upsert, h, alookup, ih]

theorem alookup_upsertAppend_self {α : Type} (l : List (String × List α)) (k : String)
    (vs : List α) :
    alookup (upsertAppend l k vs) k = some ((alookup l k).getD [] ++ vs) := by
  induction l with
  | nil => simp [upsertAppend, alookup]
  | cons p t ih =>
    obtain ⟨k', v'⟩ := p
    by_cases h : k' = k
    · simp [upsertAppend, h, alookup]
    · simp [upsertAppend, h, alookup, ih]

theorem alookup_upsertAppend_other {α : Type} (l : List (String × List α)) (k k₀ : String)
    (vs : List α) (hne : k ≠ k₀) :
    alookup (upsertAppend l k vs) k₀ = alookup l k₀ := by
  induction l with
  | nil => simp [upsertAppend, alookup, hne]
  | cons p t ih =>
    obtain ⟨k', v'⟩ := p
    by_cases h : k' = k
    · subst h
      simp [upsertAppend, alookup, hne]
    · simp [upsertAppend, h, alookup, ih]

/-- A `some` result of `alookup` is the value of some listed pair. -/
theorem alookup_mem {α : Type} {l : List (String × α)} {k : String} {v : α}
    (h : alookup l k = some v) : (k, v) ∈ l := by
  induction l with
  | nil => simp [alookup] at h
  | cons p t ih =>
    obtain ⟨k', v'⟩ := p
    by_cases hk : k' = k
    · subst hk
      simp [alookup] at h
      simp [h]
    · simp [alookup, hk] at h
      exact List.mem_cons_of_mem _ (ih h)

/-- `alookup` misses exactly the keys outside the list. -/
theorem alookup_eq_none_iff {α : Type} (l : List (String × α)) (k : String) :
    alookup l k = none ↔ k ∉ l.map Prod.fst := by
  induction l with
  | nil => simp [alookup]
  | cons p t ih =>
    obtain ⟨k', v'⟩ := p
    by_cases hk : k' = k
    · subst hk
      simp [alookup]
    · simp [alookup, hk, ih, Ne.symm hk]

theorem mem_insertPos (x y : Nat × String) (l : List (Nat × String)) :
    y ∈ insertPos x l ↔ y = x ∨ y ∈ l := by
  induction l with
  | nil => simp [insertPos]
  | cons z zs ih =>
    by_cases h : ringLe x z
    · simp [insertPos, h]
    · simp [insertPos, h, ih]
      tauto

theorem mem_sortPos (y : Nat × String) (l : List (Nat × String)) :
    y ∈ sortPos l ↔ y ∈ l := by
  induction l with
  | nil => simp [sortPos]
  | cons x xs ih => simp [sortPos, mem_insertPos, ih]

namespace HashRing

/-- Addresses appearing in ring entries are ring members. -/
theorem mem_of_mem_entries {r : HashRing} {p : Nat × String} (h : p ∈ r.entries) :
    p.2 ∈ r.members := by
  unfold entries at h
  rw [mem_sortPos] at h
  simp only [List.mem_flatten, List.mem_map] at h
  obtain ⟨l, ⟨a, ha, rfl⟩, hp⟩ := h
  simp only [List.mem_map] at hp
  obtain ⟨hsh, _, rfl⟩ := hp
  exact ha

/-- Every member with a positive replication factor owns at least one
ring entry. -/
theorem entries_of_mem {r : HashRing} {a : String} (ha : a ∈ r.members)
    (hR : 1 ≤ r.replicationFactor) :
    (r.hashFn (a ++ toString 0) % 4294967296, a) ∈ r.entries := by
  unfold entries
  rw [mem_sortPos]
  simp only [List.mem_flatten, List.mem_map]
  refine ⟨(r.positions a).map (fun h => (h, a)), ⟨a, ha, rfl⟩, ?_⟩
  simp only [List.mem_map]
  refine ⟨r.hashFn (a ++ toString 0) % 4294967296, ?_, rfl⟩
  unfold positions
  simp only [List.mem_map, List.mem_range]
  exact ⟨0, hR, rfl⟩

end HashRing

namespace RegistryState

/-- The default visitor never aborts: walking any entry list folds the
`(hash, address)` pairs into the map. -/
theorem walkList_defaultVisitor (l : List (Nat × String)) (acc : List (String × String)) :
    HashRing.walkList defaultVisitor l acc =
      Except.ok (l.foldl (fun m p => upsert m (toString p.1) p.2) acc) := by
  induction l generalizing acc with
  | nil => rfl
  | cons p t ih =>
    obtain ⟨h, a⟩ := p
    simp [HashRing.walkList, defaultVisitor, ih]

theorem info_eq (r : RegistryState) (s : String) :
    info r s =
      match r.hashRings s with
      | none => (Info.empty, false)
      | some ring =>
        ({ hashes := collectHashes ring, keys := buildKeys r (collectHashes ring) }, true) := by
  unfold info infoWith
  cases hr : r.hashRings s with
  | none => rfl
  | some ring =>
    simp [HashRing.walk, walkList_defaultVisitor, collectHashes]

/-- Every key of a fold of upserts comes from the inserted pairs or
the start map. -/
theorem alookup_foldl_upsert_eq_none {l : List (Nat × String)} {m : List (String × String)}
    {k : String} (hm : alookup m k = none) (hl : ∀ p ∈ l, toString p.1 ≠ k) :
    alookup (l.foldl (fun acc p => upsert acc (toString p.1) p.2) m) k = none := by
  induction l generalizing m with
  | nil => exact hm
  | cons p t ih =>
    simp only [List.foldl_cons]
    refine ih ?_ (fun q hq => hl q (List.mem_cons_of_mem _ hq))
    rw [alookup_upsert_other _ _ _ _ (hl p (List.mem_cons_self _ _))]
    exact hm

/-- Every value of a fold of upserts comes from the inserted pairs or
the start map. -/
theorem alookup_foldl_upsert_mem {l : List (Nat × String)} {m : List (String × String)}
    {k : String} {v : String}
    (h : alookup (l.foldl (fun acc p => upsert acc (toString p.1) p.2) m) k = some v) :
    (∃ p ∈ l, toString p.1 = k ∧ p.2 = v) ∨ alookup m k = some v := by
  induction l generalizing m with
  | nil => exact Or.inr h
  | cons p t ih =>
    simp only [List.foldl_cons] at h
    rcases ih h with hin | hm
    · obtain ⟨q, hq, hk, hv⟩ := hin
      exact Or.inl ⟨q, List.mem_cons_of_mem _ hq, hk, hv⟩
    · by_cases hk : toString p.1 = k
      · subst hk
        rw [alookup_upsert_self] at hm
        exact Or.inl ⟨p, List.mem_cons_self _ _, rfl, (Option.some.injEq _ _).mp hm⟩
      · rw [alookup_upsert_other _ _ _ _ hk] at hm
        exact Or.inr hm

/-- A binding untouched by every inserted pair survives a fold of
upserts. -/
theorem alookup_foldl_upsert_stable {l : List (Nat × String)} {m : List (String × String)}
    {k : String} {v : String} (hm : alookup m k = some v)
    (hl : ∀ p ∈ l, toString p.1 ≠ k) :
    alookup (l.foldl (fun acc p => upsert acc (toString p.1) p.2) m) k = some v := by
  induction l generalizing m with
  | nil => exact hm
  | cons p t ih =>
    simp only [List.foldl_cons]
    refine ih ?_ (fun q hq => hl q (List.mem_cons_of_mem _ hq))
    rw [alookup_upsert_other _ _ _ _ (hl p (List.mem_cons_self _ _))]
    exact hm

/-- When every listed pair whose position prints as `k` carries the
same address `a`, and at least one does, the collected hash map sends
`k` to `a`. -/
theorem alookup_foldl_upsert_unique {l : List (Nat × String)} {m : List (String × String)}
    {k : String} {a : String}
    (hex : ∃ p ∈ l, toString p.1 = k ∧ p.2 = a)
    (huniq : ∀ p ∈ l, toString p.1 = k → p.2 = a) :
    alookup (l.foldl (fun acc p => upsert acc (toString p.1) p.2) m) k = some a := by
  induction l generalizing m with
  | nil => simp at hex
  | cons p t ih =>
    simp only [List.foldl_cons]
    by_cases ht : ∃ q ∈ t, toString q.1 = k ∧ q.2 = a
    · exact ih ht (fun q hq => huniq q (List.mem_cons_of_mem _ hq))
    · obtain ⟨q, hq, hqk, hqa⟩ := hex
      rcases List.mem_cons.mp hq with rfl | hqt
      · have htail : ∀ q' ∈ t, toString q'.1 ≠ k := by
          intro q' hq' hk'
          exact ht ⟨q', hq', hk', huniq q' (List.mem_cons_of_mem _ hq') hk'⟩
        refine alookup_foldl_upsert_stable ?_ htail
        rw [hqk, hqa, alookup_upsert_self]
      · exact absurd ⟨q, hqt, hqk, hqa⟩ ht

theorem countAddr_nil (addr : String) : countAddr [] addr = 0 := rfl

theorem countAddr_cons_self (k addr : String) (t : List (String × String)) :
    countAddr ((k, addr) :: t) addr = countAddr t addr + 1 := by
  simp [countAddr]

theorem countAddr_cons_other {v addr : String} (k : String) (t : List (String × String))
    (h : v ≠ addr) : countAddr ((k, v) :: t) addr = countAddr t addr := by
  simp [countAddr, h]

/-- `addr` occurs in the hash map exactly when its count is positive. -/
theorem countAddr_pos_iff (hl : List (String × String)) (addr : String) :
    0 < countAddr hl addr ↔ addr ∈ hl.map Prod.snd := by
  simp only [countAddr, List.length_pos, ← List.filter_eq_nil_iff.not]
  constructor
  · intro h
    rcases List.exists_mem_of_ne_nil _ h with ⟨p, hp⟩
    have := List.of_mem_filter hp
    simp only [decide_eq_true_eq] at this
    exact List.mem_map.mpr ⟨p, List.mem_of_mem_filter hp, this⟩
  · intro h hnil
    obtain ⟨p, hp, hpa⟩ := List.mem_map.mp h
    have : p ∈ hl.filter (fun p => p.2 = addr) :=
      List.mem_filter.mpr ⟨hp, by simp [hpa]⟩
    simp [hnil] at this

/-- Full characterisation of the `Keys` accumulation: each occurrence
of `addr` as a value of the hash map appends one copy of that
address's flattened index entries; addresses with no occurrence or an
empty index never get a binding. -/
theorem buildKeys_foldl (r : RegistryState) (addr : String) (hl : List (String × String))
    (m : List (String × List Key)) :
    alookup
      (hl.foldl
        (fun ks p =>
          let k := r.getKeysByAddress p.2
          if 0 < k.length then upsertAppend ks p.2 k else ks)
        m) addr =
    if countAddr hl addr = 0 ∨ r.getKeysByAddress addr = [] then
      alookup m addr
    else
      some ((alookup m addr).getD [] ++
        (List.replicate (countAddr hl addr) (r.getKeysByAddress addr)).flatten) := by
  induction hl generalizing m with
  | nil => simp [countAddr_nil]
  | cons p t ih =>
    obtain ⟨hk, v⟩ := p
    simp only [List.foldl_cons]
    by_cases hv : v = addr
    · subst hv
      rw [countAddr_cons_self]
      by_cases hg : r.getKeysByAddress v = []
      · have hnlt : ¬ 0 < (r.getKeysByAddress v).length := by simp [hg]
        simp only [hnlt, if_false]
        rw [ih]
        simp [hg]
      · have hlen : 0 < (r.getKeysByAddress v).length := List.length_pos.mpr hg
        simp only [hlen, if_true]
        rw [ih, if_neg (by simp [hg] : ¬ (countAddr t v + 1 = 0 ∨ r.getKeysByAddress v = []))]
        by_cases hc : countAddr t v = 0
        · rw [if_pos (Or.inl hc), alookup_upsertAppend_self, hc]
          simp
        · rw [if_neg (by simp [hc, hg]), alookup_upsertAppend_self]
          obtain ⟨c, hceq⟩ : ∃ c, countAddr t v = c + 1 := ⟨countAddr t v - 1, by omega⟩
          rw [hceq]
          simp [List.replicate_succ, List.append_assoc]
    · rw [countAddr_cons_other _ _ hv]
      by_cases hstep : 0 < (r.getKeysByAddress v).length
      · simp only [hstep, if_true]
        rw [ih, alookup_upsertAppend_other _ _ _ _ hv]
      · simp only [hstep, if_false]
        exact ih m

/-- `alookup` on the built `Keys` map, from an empty accumulator. -/
theorem alookup_buildKeys (r : RegistryState) (hashes : List (String × String)) (addr : String) :
    alookup (r.buildKeys hashes) addr =
    if countAddr hashes addr = 0 ∨ r.getKeysByAddress addr = [] then
      none
    else
      some ((List.replicate (countAddr hashes addr) (r.getKeysByAddress addr)).flatten) := by
  unfold buildKeys
  rw [buildKeys_foldl]
  simp only [alookup_nil, Option.getD_none, List.nil_append]

/-- Values of an upsert come from the inserted value or the old map. -/
theorem mem_values_upsert {α : Type} {l : List (String × α)} {k : String} {v w : α}
    (h : w ∈ (upsert l k v).map Prod.snd) : w = v ∨ w ∈ l.map Prod.snd := by
  induction l with
  | nil => simpa [upsert] using h
  | cons p t ih =>
    obtain ⟨k', v'⟩ := p
    by_cases hk : k' = k
    · simp only [upsert, hk, if_true, List.map_cons, List.mem_cons] at h
      rcases h with rfl | h
      · exact Or.inl rfl
      · exact Or.inr (by simp [h])
    · simp only [upsert, hk, if_false, List.map_cons, List.mem_cons] at h
      rcases h with rfl | h
      · exact Or.inr (by simp)
      · rcases ih h with h' | h'
        · exact Or.inl h'
        · exact Or.inr (by simp [h'])

/-- Values of the collected hash map come from the walked entries or
the start map. -/
theorem mem_values_foldl_upsert {l : List (Nat × String)} {m : List (String × String)} {w : String}
    (h : w ∈ ((l.foldl (fun acc p => upsert acc (toString p.1) p.2) m).map Prod.snd)) :
    (∃ p ∈ l, p.2 = w) ∨ w ∈ m.map Prod.snd := by
  induction l generalizing m with
  | nil => exact Or.inr h
  | cons p t ih =>
    simp only [List.foldl_cons] at h
    rcases ih h with hin | hm
    · obtain ⟨q, hq, hv⟩ := hin
      exact Or.inl ⟨q, List.mem_cons_of_mem _ hq, hv⟩
    · rcases mem_values_upsert hm with rfl | hm'
      · exact Or.inl ⟨p, List.mem_cons_self _ _, rfl⟩
      · exact Or.inr hm'

/-- Every address among the values of `collectHashes` is a ring member. -/
theorem mem_members_of_mem_collectHashes {ring : HashRing} {w : String}
    (h : w ∈ (collectHashes ring).map Prod.snd) : w ∈ ring.members := by
  unfold collectHashes at h
  rcases mem_values_foldl_upsert h with ⟨p, hp, rfl⟩ | hm
  · exact HashRing.mem_of_mem_entries hp
  · simp at hm

/-- `buildKeys` only consults the index at walked addresses, so two
states agreeing there build identical key maps. -/
theorem buildKeys_congr (r r' : RegistryState) (hl : List (String × String))
    (h : ∀ p ∈ hl, r'.getKeysByAddress p.2 = r.getKeysByAddress p.2) :
    r'.buildKeys hl = r.buildKeys hl := by
  unfold buildKeys
  suffices hgen : ∀ m : List (String × List Key),
      hl.foldl
        (fun ks p =>
          let k := r'.getKeysByAddress p.2
          if 0 < k.length then upsertAppend ks p.2 k else ks) m =
      hl.foldl
        (fun ks p =>
          let k := r.getKeysByAddress p.2
          if 0 < k.length then upsertAppend ks p.2 k else ks) m by
    exact hgen []
  induction hl with
  | nil => intro m; rfl
  | cons p t ih =>
    intro m
    simp only [List.foldl_cons]
    rw [h p (List.mem_cons_self _ _)]
    exact ih (fun q hq => h q (List.mem_cons_of_mem _ hq)) _

/-- `Info` only reads the ring of the queried category and the index
at that ring's member addresses. -/
theorem info_congr (r r' : RegistryState) (s : String)
    (hring : r'.hashRings s = r.hashRings s)
    (hkeys : ∀ ring, r.hashRings s = some ring →
      ∀ a ∈ ring.members, r'.keys a = r.keys a) :
    r'.info s = r.info s := by
  rw [info_eq, info_eq, hring]
  cases hr : r.hashRings s with
  | none => rfl
  | some ring =>
    have hgk : ∀ p ∈ collectHashes ring, r'.getKeysByAddress p.2 = r.getKeysByAddress p.2 := by
      intro p hp
      have hmem : p.2 ∈ ring.members :=
        mem_members_of_mem_collectHashes (List.mem_map.mpr ⟨p, hp, rfl⟩)
      unfold getKeysByAddress
      rw [hkeys ring hr p.2 hmem]
    have hb := buildKeys_congr r r' (collectHashes ring) hgk
    simp [hb]

end RegistryState

namespace HashRing

/-- After `Add`, the address is a member. -/
theorem mem_add_self (r : HashRing) (addr : String) : addr ∈ (r.add addr).1.members := by
  unfold add
  by_cases h : addr ∈ r.members
  · simp [h]
  · simp [h]

/-- After `Remove`, the address is gone from the members. -/
theorem not_mem_remove_self (r : HashRing) (addr : String) :
    addr ∉ (r.remove addr).1.members := by
  unfold remove
  simp only [List.mem_filter]
  rintro ⟨-, habs⟩
  simp at habs

/-- Removal only drops the removed address. -/
theorem mem_remove_of_ne (r : HashRing) (addr a : String) (ha : a ∈ r.members)
    (hne : a ≠ addr) : a ∈ (r.remove addr).1.members := by
  unfold remove
  simp [List.mem_filter, ha, hne]

end HashRing

theorem digitVal_digitChar {d : Nat} (h : d < 10) : digitVal (digitChar d) = some d := by
  interval_cases d <;> decide

theorem digitChar_ne_minus {d : Nat} (h : d < 10) : ¬ digitChar d = '-' := by
  interval_cases d <;> decide

theorem digitChar_ne_plus {d : Nat} (h : d < 10) : ¬ digitChar d = '+' := by
  interval_cases d <;> decide

/-- The digit list of any natural starts with a digit character. -/
theorem natToDigits_shape (n : Nat) :
    ∃ d t, natToDigits n = digitChar d :: t ∧ d < 10 := by
  induction n using Nat.strong_induction_on with
  | _ n ih =>
    by_cases h : n < 10
    · exact ⟨n, [], by rw [natToDigits, dif_pos h], h⟩
    · obtain ⟨d, t, heq, hd⟩ := ih (n / 10) (Nat.div_lt_self (by omega) (by omega))
      refine ⟨d, t ++ [digitChar (n % 10)], ?_, hd⟩
      rw [natToDigits, dif_neg h, heq]
      rfl

theorem parseDigitsAux_append (n : Nat) :
    ∀ acc rest, parseDigitsAux acc (natToDigits n ++ rest) = parseDigitsAux (accDigits acc n) rest := by
  induction n using Nat.strong_induction_on with
  | _ n ih =>
    intro acc rest
    by_cases h : n < 10
    · rw [natToDigits, dif_pos h, accDigits, if_pos h]
      simp [parseDigitsAux, digitVal_digitChar h]
    · rw [natToDigits, dif_neg h, accDigits, if_neg h, List.append_assoc,
        ih (n / 10) (Nat.div_lt_self (by omega) (by omega)) acc _]
      simp [parseDigitsAux, digitVal_digitChar (Nat.mod_lt n (by omega))]

theorem accDigits_zero (n : Nat) : accDigits 0 n = n := by
  induction n using Nat.strong_induction_on with
  | _ n ih =>
    by_cases h : n < 10
    · rw [accDigits, if_pos h]
      omega
    · rw [accDigits, if_neg h, ih (n / 10) (Nat.div_lt_self (by omega) (by omega))]
      omega

/-- Printed digits parse back to the printed number. -/
theorem parseDigits_natToDigits (n : Nat) : parseDigits (natToDigits n) = some n := by
  obtain ⟨d, t, heq, hd⟩ := natToDigits_shape n
  have h1 : parseDigits (natToDigits n) = parseDigitsAux 0 (natToDigits n) := by
    rw [heq]
    rfl
  rw [h1, ← List.append_nil (natToDigits n), parseDigitsAux_append n 0 [], accDigits_zero]
  rfl

/-- `strconv` round trip: parsing a printed integer recovers it. -/
theorem atoi_itoa (i : Int) : atoi (itoa i) = Except.ok i := by
  unfold atoi itoa
  by_cases h : i < 0
  · rw [if_pos h]
    have h1 : atoiList (String.mk ('-' :: natToDigits (-i).toNat)).data =
        match parseDigits (natToDigits (-i).toNat) with
        | some n => Except.ok (-(n : Int))
        | none => Except.error "invalid syntax" := rfl
    rw [h1, parseDigits_natToDigits]
    show Except.ok (-(((-i).toNat : Nat) : Int)) = Except.ok i
    congr 1
    omega
  · rw [if_neg h]
    obtain ⟨d, t, heq, hd⟩ := natToDigits_shape i.toNat
    rw [heq]
    show atoiList (digitChar d :: t) = Except.ok i
    simp only [atoiList]
    rw [if_neg (digitChar_ne_minus hd), if_neg (digitChar_ne_plus hd), ← heq,
      parseDigits_natToDigits]
    show Except.ok ((i.toNat : Nat) : Int) = Except.ok i
    congr 1
    omega

namespace RegistryState

/-! ## Branch equations and frame lemmas for the registry operations -/

theorem updateKey_no_ring {r : RegistryState} {k : Key} (h : r.hashRings k.type = none) :
    r.updateKey k = (r, false) := by
  unfold updateKey
  simp [h]

theorem updateKey_not_contains {r : RegistryState} {k : Key} {ring : HashRing}
    (h : r.hashRings k.type = some ring) (hc : ring.contains k.address = false) :
    r.updateKey k = (r, false) := by
  unfold updateKey
  simp [h, hc]

theorem updateKey_no_inner {r : RegistryState} {k : Key} {ring : HashRing}
    (h : r.hashRings k.type = some ring) (hc : ring.contains k.address = true)
    (hm : r.keys k.address = none) :
    r.updateKey k = (r, false) := by
  unfold updateKey
  simp [h, hc, hm]

theorem updateKey_no_name {r : RegistryState} {k : Key} {ring : HashRing}
    {m : List (String × Key)}
    (h : r.hashRings k.type = some ring) (hc : ring.contains k.address = true)
    (hm : r.keys k.address = some m) (ha : alookup m k.name = none) :
    r.updateKey k = (r, false) := by
  unfold updateKey
  simp [h, hc, hm, ha]

theorem updateKey_success {r : RegistryState} {k : Key} {ring : HashRing}
    {m : List (String × Key)} {e : Key}
    (h : r.hashRings k.type = some ring) (hc : ring.contains k.address = true)
    (hm : r.keys k.address = some m) (ha : alookup m k.name = some e) :
    r.updateKey k =
      ({ r with keys := fun a => if a = k.address then some (upsert m k.name k) else r.keys a }
      , true) := by
  unfold updateKey
  simp [h, hc, hm, ha]

theorem infoWith_no_ring {r : RegistryState} {s : String}
    {f : List (String × String) → String → String → Except String (List (String × String))}
    (h : r.hashRings s = none) : r.infoWith s f = (Info.empty, false) := by
  unfold infoWith
  simp [h]

theorem infoWith_error {r : RegistryState} {s : String} {ring : HashRing} {e : String}
    {f : List (String × String) → String → String → Except String (List (String × String))}
    (h : r.hashRings s = some ring) (hw : ring.walk f [] = Except.error e) :
    r.infoWith s f = (Info.empty, false) := by
  unfold infoWith
  simp [h, hw]

theorem infoWith_ok {r : RegistryState} {s : String} {ring : HashRing}
    {hashes : List (String × String)}
    {f : List (String × String) → String → String → Except String (List (String × String))}
    (h : r.hashRings s = some ring) (hw : ring.walk f [] = Except.ok hashes) :
    r.infoWith s f = ({ hashes := hashes, keys := r.buildKeys hashes }, true) := by
  unfold infoWith
  simp [h, hw]

theorem addKey_hashRings_other (r : RegistryState) (k : Key) (t : String) (h : t ≠ k.type) :
    (r.addKey k).1.hashRings t = r.hashRings t := by
  unfold addKey
  simp [h]

theorem addKey_keys_other (r : RegistryState) (k : Key) (a : String) (h : a ≠ k.address) :
    (r.addKey k).1.keys a = r.keys a := by
  unfold addKey
  simp [h]

theorem removeKey_hashRings_other (r : RegistryState) (k : Key) (t : String) (h : t ≠ k.type) :
    (r.removeKey k).1.hashRings t = r.hashRings t := by
  unfold removeKey
  cases r.hashRings k.type <;> simp [h]

theorem removeKey_keys_other (r : RegistryState) (k : Key) (a : String) (h : a ≠ k.address) :
    (r.removeKey k).1.keys a = r.keys a := by
  unfold removeKey
  cases r.hashRings k.type <;> cases r.keys k.address <;> simp [h]

theorem updateKey_hashRings (r : RegistryState) (k : Key) :
    (r.updateKey k).1.hashRings = r.hashRings := by
  cases h : r.hashRings k.type with
  | none => rw [updateKey_no_ring h]
  | some ring =>
    cases hc : ring.contains k.address with
    | false => rw [updateKey_not_contains h hc]
    | true =>
      cases hm : r.keys k.address with
      | none => rw [updateKey_no_inner h hc hm]
      | some m =>
        cases ha : alookup m k.name with
        | none => rw [updateKey_no_name h hc hm ha]
        | some e => rw [updateKey_success h hc hm ha]

theorem updateKey_keys_other (r : RegistryState) (k : Key) (a : String) (h : a ≠ k.address) :
    (r.updateKey k).1.keys a = r.keys a := by
  cases hr : r.hashRings k.type with
  | none => rw [updateKey_no_ring hr]
  | some ring =>
    cases hc : ring.contains k.address with
    | false => rw [updateKey_not_contains hr hc]
    | true =>
      cases hm : r.keys k.address with
      | none => rw [updateKey_no_inner hr hc hm]
      | some m =>
        cases ha : alookup m k.name with
        | none => rw [updateKey_no_name hr hc hm ha]
        | some e =>
          rw [updateKey_success hr hc hm ha]
          simp [h]

end RegistryState

/-- The inserted value is always among the values after an upsert. -/
theorem mem_values_upsert_self {α : Type} (l : List (String × α)) (k : String) (v : α) :
    v ∈ (upsert l k v).map Prod.snd := by
  induction l with
  | nil => simp [upsert]
  | cons p t ih =>
    obtain ⟨k', v'⟩ := p
    by_cases h : k' = k
    · simp [upsert, h]
    · simp only [upsert, h, if_false, List.map_cons, List.mem_cons]
      exact Or.inr ih

namespace RegistryState

/-- After `Add`, the category's ring holds the added address. -/
theorem addKey_mem_members (r : RegistryState) (k : Key) (ring' : HashRing)
    (h : (r.addKey k).1.hashRings k.type = some ring') : k.address ∈ ring'.members := by
  unfold addKey at h
  simp only [if_true, eq_self_iff_true, Option.some.injEq] at h
  rw [← h]
  exact HashRing.mem_add_self _ _

/-- After `Add`, the index at the added address binds the added name
to the added key on top of the previous inner map. -/
theorem addKey_keys_self (r : RegistryState) (k : Key) :
    ∃ inner, (r.addKey k).1.keys k.address = some (upsert inner k.name k) := by
  refine ⟨(match r.keys k.address with | some m => m | none => []), ?_⟩
  unfold addKey
  simp

end RegistryState

theorem applyOp_hashRings_other (r : RegistryState) (p : RegOp × Key) (t : String)
    (h : t ≠ p.2.type) : (applyOp r p).hashRings t = r.hashRings t := by
  obtain ⟨op, k⟩ := p
  cases op with
  | addOp => exact RegistryState.addKey_hashRings_other r k t h
  | removeOp => exact RegistryState.removeKey_hashRings_other r k t h
  | updateOp => rw [applyOp, RegistryState.updateKey_hashRings]

theorem applyOp_keys_other (r : RegistryState) (p : RegOp × Key) (a : String)
    (h : a ≠ p.2.address) : (applyOp r p).keys a = r.keys a := by
  obtain ⟨op, k⟩ := p
  cases op with
  | addOp => exact RegistryState.addKey_keys_other r k a h
  | removeOp => exact RegistryState.removeKey_keys_other r k a h
  | updateOp => exact RegistryState.updateKey_keys_other r k a h

/-- Frame property of a sequence of mutations: categories and
addresses untouched by the sequence keep their ring and index. -/
theorem applyOps_frame (B : String) (ops : List (RegOp × Key)) :
    ∀ r : RegistryState, (∀ p ∈ ops, p.2.type ≠ B) →
      (applyOps r ops).hashRings B = r.hashRings B ∧
      (∀ a, (∀ p ∈ ops, p.2.address ≠ a) → (applyOps r ops).keys a = r.keys a) := by
  induction ops with
  | nil => exact fun r _ => ⟨rfl, fun a _ => rfl⟩
  | cons p t ih =>
    intro r hty
    obtain ⟨ihr, ihk⟩ := ih (applyOp r p) (fun q hq => hty q (List.mem_cons_of_mem _ hq))
    refine ⟨?_, ?_⟩
    · show (applyOps (applyOp r p) t).hashRings B = r.hashRings B
      rw [ihr, applyOp_hashRings_other _ _ _ (Ne.symm (hty p (List.mem_cons_self _ _)))]
    · intro a ha
      show (applyOps (applyOp r p) t).keys a = r.keys a
      rw [ihk a (fun q hq => ha q (List.mem_cons_of_mem _ hq)),
        applyOp_keys_other _ _ _ (Ne.symm (ha p (List.mem_cons_self _ _)))]

/-! ## Claims -/

/-- C5: `Remove` always returns `true`, for every entry and every
registry state, whether or not the ring or any index entry existed. -/
theorem claim_C5_remove_always_true (r : RegistryState) (k : Key) :
    (r.removeKey k).2 = true := rfl

/-- C4: `Update(e)` returns `true` exactly when a ring exists for
`e.Type()`, contains `e.Address()`, and the index has an entry at
`index[e.Address()][e.Name()]`; on success it replaces only that
stored entry (leaving every ring and every other index binding
unchanged), and on failure it returns `false` leaving the whole state
unchanged. -/
theorem claim_C4_update_precondition_atomicity (r : RegistryState) (k : Key) :
    ((r.updateKey k).2 = true ↔
      ∃ ring m, r.hashRings k.type = some ring ∧ ring.contains k.address = true ∧
        r.keys k.address = some m ∧ ∃ e, alookup m k.name = some e) ∧
    ((r.updateKey k).2 = true →
      (r.updateKey k).1.hashRings = r.hashRings ∧
      (∀ a, a ≠ k.address → (r.updateKey k).1.keys a = r.keys a) ∧
      (∃ m m', r.keys k.address = some m ∧ (r.updateKey k).1.keys k.address = some m' ∧
        alookup m' k.name = some k ∧
        ∀ n, n ≠ k.name → alookup m' n = alookup m n)) ∧
    ((r.updateKey k).2 = false → (r.updateKey k).1 = r) := by
  cases hr : r.hashRings k.type with
  | none =>
    rw [RegistryState.updateKey_no_ring hr]
    refine ⟨?_, ?_, fun _ => rfl⟩
    · simp only [Bool.false_eq_true, false_iff]
      rintro ⟨ring, m, habs, -⟩
      simp at habs
    · intro habs
      simp at habs
  | some ring =>
    cases hc : ring.contains k.address with
    | false =>
      rw [RegistryState.updateKey_not_contains hr hc]
      refine ⟨?_, ?_, fun _ => rfl⟩
      · simp only [Bool.false_eq_true, false_iff]
        rintro ⟨ring', m, hring', hc', -⟩
        injection hring' with heq
        subst heq
        rw [hc] at hc'
        cases hc'
      · intro habs
        simp at habs
    | true =>
      cases hm : r.keys k.address with
      | none =>
        rw [RegistryState.updateKey_no_inner hr hc hm]
        refine ⟨?_, ?_, fun _ => rfl⟩
        · simp only [Bool.false_eq_true, false_iff]
          rintro ⟨ring', m, -, -, habs, -⟩
          simp at habs
        · intro habs
          simp at habs
      | some m =>
        cases ha : alookup m k.name with
        | none =>
          rw [RegistryState.updateKey_no_name hr hc hm ha]
          refine ⟨?_, ?_, fun _ => rfl⟩
          · simp only [Bool.false_eq_true, false_iff]
            rintro ⟨ring', m', -, -, hm', e, he⟩
            injection hm' with heq
            subst heq
            rw [ha] at he
            cases he
          · intro habs
            simp at habs
        | some e =>
          rw [RegistryState.updateKey_success hr hc hm ha]
          refine ⟨?_, ?_, ?_⟩
          · simp only [true_iff]
            exact ⟨ring, m, rfl, hc, rfl, e, ha⟩
          · intro _
            refine ⟨rfl, ?_, ?_⟩
            · intro a hne
              simp [hne]
            · refine ⟨m, upsert m k.name k, rfl, by simp, alookup_upsert_self _ _ _, ?_⟩
              intro n hn
              exact alookup_upsert_other _ _ _ _ (Ne.symm hn)
          · intro habs
            simp at habs

/-- C6: removing an entry whose category has a ring evicts its whole
address: the category's ring no longer contains the address, and
`Info` for that category lists it neither among the hash values nor
among the `Keys` keys — even when other names shared the address. -/
theorem claim_C6_full_eviction_on_remove (r : RegistryState) (k : Key) (ring : HashRing)
    (h : r.hashRings k.type = some ring) :
    ∃ ring', (r.removeKey k).1.hashRings k.type = some ring' ∧
      ring'.contains k.address = false ∧
      ((r.removeKey k).1.info k.type).2 = true ∧
      k.address ∉ ((r.removeKey k).1.info k.type).1.hashes.map Prod.snd ∧
      k.address ∉ ((r.removeKey k).1.info k.type).1.keys.map Prod.fst := by
  have hr' : (r.removeKey k).1.hashRings k.type = some (ring.remove k.address).1 := by
    unfold RegistryState.removeKey
    simp [h]
  refine ⟨(ring.remove k.address).1, hr', ?_, ?_, ?_, ?_⟩
  · simp only [HashRing.contains, decide_eq_false_iff_not]
    exact HashRing.not_mem_remove_self ring k.address
  · rw [RegistryState.info_eq, hr']
  · rw [RegistryState.info_eq, hr']
    intro habs
    exact HashRing.not_mem_remove_self ring k.address
      (RegistryState.mem_members_of_mem_collectHashes habs)
  · rw [RegistryState.info_eq, hr']
    have hnv : k.address ∉ (RegistryState.collectHashes (ring.remove k.address).1).map Prod.snd :=
      fun habs => HashRing.not_mem_remove_self ring k.address
        (RegistryState.mem_members_of_mem_collectHashes habs)
    have hc : RegistryState.countAddr
        (RegistryState.collectHashes (ring.remove k.address).1) k.address = 0 := by
      by_contra hne
      exact hnv ((RegistryState.countAddr_pos_iff _ _).mp (by omega))
    have hnone : alookup
        ((r.removeKey k).1.buildKeys (RegistryState.collectHashes (ring.remove k.address).1))
        k.address = none := by
      rw [RegistryState.alookup_buildKeys]
      simp [hc]
    rw [alookup_eq_none_iff] at hnone
    exact hnone

/-- C7: `Info` reports not-found exactly when the category has no
ring or (for any visitor) the ring walk aborts with an error, and
both causes yield the same observable result, the empty `Info` with
`found=false`; the code's own visitor never errors, so for the code's
`Info` not-found coincides with ring absence. -/
theorem claim_C7_info_not_found_collapse (r : RegistryState) (s : String) :
    (r.info s = r.infoWith s RegistryState.defaultVisitor) ∧
    ((r.info s).2 = false ↔ r.hashRings s = none) ∧
    ((r.info s).2 = false → (r.info s).1 = Info.empty) ∧
    (∀ f, ((r.infoWith s f).2 = false ↔
        (r.hashRings s = none ∨
          ∃ ring e, r.hashRings s = some ring ∧ ring.walk f [] = Except.error e)) ∧
      ((r.infoWith s f).2 = false → (r.infoWith s f).1 = Info.empty)) := by
  refine ⟨rfl, ?_, ?_, ?_⟩
  · rw [RegistryState.info_eq]
    cases hr : r.hashRings s with
    | none => simp
    | some ring => simp
  · rw [RegistryState.info_eq]
    cases hr : r.hashRings s with
    | none =>
      intro _
      rfl
    | some ring =>
      intro habs
      simp at habs
  · intro f
    cases hr : r.hashRings s with
    | none =>
      rw [RegistryState.infoWith_no_ring hr]
      exact ⟨by simp [hr], fun _ => rfl⟩
    | some ring =>
      cases hw : ring.walk f [] with
      | error e =>
        rw [RegistryState.infoWith_error hr hw]
        refine ⟨?_, fun _ => rfl⟩
        simp only [true_iff]
        exact Or.inr ⟨ring, e, rfl, hw⟩
      | ok hashes =>
        rw [RegistryState.infoWith_ok hr hw]
        refine ⟨?_, ?_⟩
        · simp only [Bool.true_eq_false, false_iff]
          rintro (habs | ⟨ring', e, hring', hw'⟩)
          · simp at habs
          · injection hring' with heq
            subst heq
            rw [hw] at hw'
            cases hw'
        · intro habs
          simp at habs

/-- C9: whenever `Info` finds a category, addresses with no index
entries are omitted from `Keys` entirely, and `Keys` never binds an
address to an empty list. -/
theorem claim_C9_no_empty_keys (r : RegistryState) (s : String) (ring : HashRing)
    (h : r.hashRings s = some ring) :
    (∀ addr, r.getKeysByAddress addr = [] → alookup (r.info s).1.keys addr = none) ∧
    (∀ addr l, alookup (r.info s).1.keys addr = some l → l ≠ []) := by
  have hinfo : (r.info s).1.keys = r.buildKeys (RegistryState.collectHashes ring) := by
    rw [RegistryState.info_eq, h]
  rw [hinfo]
  constructor
  · intro addr hg
    rw [RegistryState.alookup_buildKeys]
    simp [hg]
  · intro addr l hl
    rw [RegistryState.alookup_buildKeys] at hl
    by_cases hcond : RegistryState.countAddr (RegistryState.collectHashes ring) addr = 0 ∨
        r.getKeysByAddress addr = []
    · rw [if_pos hcond] at hl
      cases hl
    · rw [if_neg hcond] at hl
      push_neg at hcond
      obtain ⟨hc, hg⟩ := hcond
      obtain ⟨c, hceq⟩ : ∃ c, RegistryState.countAddr (RegistryState.collectHashes ring) addr
          = c + 1 :=
        ⟨RegistryState.countAddr (RegistryState.collectHashes ring) addr - 1, by omega⟩
      rw [hceq] at hl
      cases hl
      simp only [List.replicate_succ, List.flatten_cons]
      intro habs
      rcases List.append_eq_nil.mp habs with ⟨hg0, -⟩
      exact hg hg0

/-- C1 (counterexample): with a constant hash function (replication
factor 1), adding entry `collideKeyA` after `collideKeyB` leaves the
queried `Hashes` without `collideKeyA`'s address: its only position
collides with the other address, which wins the walk-order tie, so
the round trip fails as stated. -/
theorem claim_C1_counterexample :
    ((collideState.info "c").2 = true) ∧
    ¬ collideKeyA.address ∈ ((collideState.info "c").1.hashes.map Prod.snd) ∧
    alookup (collideState.info "c").1.keys collideKeyA.address = none := by decide

/-- C1 (amended): after `Add(e)`, provided the resulting ring for
`e.Type()` has replication factor at least 1 and no two addresses
share a rendered virtual position, `Info(e.Type())` finds the
category, lists `e.Address()` among the hash values, and binds
`Keys[e.Address()]` to a list containing an entry named `e.Name()`. -/
theorem claim_C1_roundtrip_amended (r : RegistryState) (e : Key) (ring' : HashRing)
    (h1 : (r.addKey e).1.hashRings e.type = some ring')
    (hR : 1 ≤ ring'.replicationFactor)
    (hcf : ring'.collisionFree) :
    ((r.addKey e).1.info e.type).2 = true ∧
    e.address ∈ (((r.addKey e).1.info e.type).1.hashes.map Prod.snd) ∧
    (∃ l, alookup ((r.addKey e).1.info e.type).1.keys e.address = some l ∧
      ∃ k, k ∈ l ∧ k.name = e.name) := by
  have hmem : e.address ∈ ring'.members := RegistryState.addKey_mem_members r e ring' h1
  have hfound : ((r.addKey e).1.info e.type).2 = true := by
    rw [RegistryState.info_eq, h1]
  have hhashes : ((r.addKey e).1.info e.type).1.hashes = RegistryState.collectHashes ring' := by
    rw [RegistryState.info_eq, h1]
  have hkeysmap : ((r.addKey e).1.info e.type).1.keys
      = (r.addKey e).1.buildKeys (RegistryState.collectHashes ring') := by
    rw [RegistryState.info_eq, h1]
  have hentry : (ring'.hashFn (e.address ++ toString 0) % 4294967296, e.address) ∈ ring'.entries :=
    HashRing.entries_of_mem hmem hR
  have hlook : alookup (RegistryState.collectHashes ring')
      (toString (ring'.hashFn (e.address ++ toString 0) % 4294967296)) = some e.address := by
    unfold RegistryState.collectHashes
    refine RegistryState.alookup_foldl_upsert_unique ⟨_, hentry, rfl, rfl⟩ ?_
    intro p hp hps
    exact hcf p hp _ hentry hps
  have hmemv : e.address ∈ (RegistryState.collectHashes ring').map Prod.snd :=
    List.mem_map.mpr ⟨_, alookup_mem hlook, rfl⟩
  refine ⟨hfound, by rw [hhashes]; exact hmemv, ?_⟩
  obtain ⟨inner, hinner⟩ := RegistryState.addKey_keys_self r e
  have hg : e ∈ (r.addKey e).1.getKeysByAddress e.address := by
    unfold RegistryState.getKeysByAddress
    rw [hinner]
    exact mem_values_upsert_self inner e.name e
  have hgne : ¬ (r.addKey e).1.getKeysByAddress e.address = [] := by
    intro h0
    rw [h0] at hg
    cases hg
  have hcpos : 0 < RegistryState.countAddr (RegistryState.collectHashes ring') e.address :=
    (RegistryState.countAddr_pos_iff _ _).mpr hmemv
  rw [hkeysmap, RegistryState.alookup_buildKeys,
    if_neg (by push_neg; exact ⟨by omega, hgne⟩)]
  refine ⟨_, rfl, e, ?_, rfl⟩
  obtain ⟨c, hceq⟩ : ∃ c,
      RegistryState.countAddr (RegistryState.collectHashes ring') e.address = c + 1 :=
    ⟨RegistryState.countAddr (RegistryState.collectHashes ring') e.address - 1, by omega⟩
  rw [hceq]
  simp only [List.replicate_succ, List.flatten_cons]
  exact List.mem_append_left _ hg

/-- C1 (witness): the amended round trip at the spec's R=2 scenario,
adding entry B to the registry that already holds entry A. -/
theorem claim_C1_witness :
    ((demoState.info entryB.type).2 = true) ∧
    entryB.address ∈ ((demoState.info entryB.type).1.hashes.map Prod.snd) ∧
    (∃ l, alookup (demoState.info entryB.type).1.keys entryB.address = some l ∧
      ∃ k, k ∈ l ∧ k.name = entryB.name) :=
  claim_C1_roundtrip_amended ((RegistryState.new hashDemo 2).addKey entryA).1 entryB demoRing
    rfl (by decide) (by decide)

/-- C2 (counterexample): in the spec's R=2 scenario the code returns
`Keys[A.address] = [A, A]` — one copy per virtual position of the
address, not one entry per distinct address as claimed. -/
theorem claim_C2_counterexample :
    ((demoState.info "worker").2 = true) ∧
    alookup (demoState.info "worker").1.keys entryA.address = some [entryA, entryA] ∧
    ¬ alookup (demoState.info "worker").1.keys entryA.address = some [entryA] := by decide

/-- C2 (amended): `Keys[addr]` holds one copy of the address's
flattened index entries per hash-map position that resolves to
`addr` (so R copies when the address's R positions are distinct), or
no binding at all when the address never occurs or has no entries. -/
theorem claim_C2_keys_per_position_amended (r : RegistryState) (s : String) (ring : HashRing)
    (h : r.hashRings s = some ring) (addr : String) :
    alookup (r.info s).1.keys addr =
      if RegistryState.countAddr ((r.info s).1.hashes) addr = 0 ∨ r.getKeysByAddress addr = []
      then none
      else some ((List.replicate (RegistryState.countAddr ((r.info s).1.hashes) addr)
        (r.getKeysByAddress addr)).flatten) := by
  have h1 : (r.info s).1.hashes = RegistryState.collectHashes ring := by
    rw [RegistryState.info_eq, h]
  have h2 : (r.info s).1.keys = r.buildKeys (RegistryState.collectHashes ring) := by
    rw [RegistryState.info_eq, h]
  rw [h1, h2, RegistryState.alookup_buildKeys]

/-- C2 (witness): the amended characterisation evaluated on the R=2
scenario yields the duplicated entry list. -/
theorem claim_C2_witness :
    alookup (demoState.info "worker").1.keys entryA.address = some [entryA, entryA] := by
  rw [claim_C2_keys_per_position_amended demoState "worker" demoRing rfl entryA.address]
  decide

/-- C3 (counterexample): a single `Remove` of a category-a entry
changes the `Keys` reported by `Info` for category b, because the
two categories share address x and name n: the claimed isolation
fails as stated. -/
theorem claim_C3_counterexample :
    isoKeyA.type = "a" ∧ ¬ ("a" : String) = "b" ∧
    alookup (isoBase.info "b").1.keys "x" = some [isoKeyB] ∧
    alookup ((isoBase.removeKey isoKeyA).1.info "b").1.keys "x" = none ∧
    (((isoBase.removeKey isoKeyA).1.info "b").2 = true) := by decide

/-- C3 (amended): a sequence of mutations on category-A entries never
changes category B's ring; and when the mutated entries' addresses
avoid B's ring members, the whole `Info(B)` snapshot (hashes and
keys) is unchanged as well. -/
theorem claim_C3_category_isolation_amended (r : RegistryState) (A B : String) (hAB : A ≠ B)
    (ops : List (RegOp × Key)) (hty : ∀ p ∈ ops, p.2.type = A) :
    (applyOps r ops).hashRings B = r.hashRings B ∧
    ((∀ p ∈ ops, ∀ ring, r.hashRings B = some ring → p.2.address ∉ ring.members) →
      (applyOps r ops).info B = r.info B) := by
  have hty' : ∀ p ∈ ops, p.2.type ≠ B := by
    intro p hp
    rw [hty p hp]
    exact hAB
  obtain ⟨h1, h2⟩ := applyOps_frame B ops r hty'
  refine ⟨h1, ?_⟩
  intro haddr
  refine RegistryState.info_congr r (applyOps r ops) B h1 ?_
  intro ring hring a hamem
  refine h2 a ?_
  intro p hp heq
  refine haddr p hp ring hring ?_
  rw [heq]
  exact hamem

/-- C3 (witness): adding a fresh-address category-a entry leaves
`Info` for category b untouched. -/
theorem claim_C3_witness :
    (applyOps isoBase
        [(RegOp.addOp, { name := "m", type := "a", address := "y", tags := [] })]).info "b"
      = isoBase.info "b" := by
  refine (claim_C3_category_isolation_amended isoBase "a" "b" (by decide)
    [(RegOp.addOp, { name := "m", type := "a", address := "y", tags := [] })] (by decide)).2 ?_
  intro p hp ring hring
  have h0 : (some isoRing : Option HashRing) = some ring := hring
  injection h0 with h0'
  rcases List.mem_singleton.mp hp with rfl
  rw [← h0']
  decide

/-- C8: `HandleEvent` always returns nil, and mutates the registry by
folding the member batch in order through Add for joined events,
Remove for left events, Update for updated events, and not at all for
any other member-event kind or non-member event. -/
theorem claim_C8_event_adapter_dispatch (r : RegistryState) (ev : Event) :
    ((handleEvent r ev).2 = none) ∧
    (handleEvent r ev).1 =
      match ev with
      | Event.memberEvent MemberEventType.joined ms =>
        ms.foldl (fun st m => (st.addKey (memberToKey m)).1) r
      | Event.memberEvent MemberEventType.left ms =>
        ms.foldl (fun st m => (st.removeKey (memberToKey m)).1) r
      | Event.memberEvent MemberEventType.updated ms =>
        ms.foldl (fun st m => (st.updateKey (memberToKey m)).1) r
      | Event.memberEvent MemberEventType.otherKind _ => r
      | Event.nonMemberEvent => r := by
  cases ev with
  | nonMemberEvent => exact ⟨rfl, rfl⟩
  | memberEvent ty ms =>
    cases ty <;> refine ⟨rfl, ?_⟩ <;>
      simp [handleEvent, dispatchFn, membersToKeys, List.foldl_map]

/-- C10: decoding an encoded peer-info tag map recovers the original
`PeerInfo` with no error, for every name, peer type, API address and
API port. -/
theorem claim_C10_peer_info_roundtrip (info : PeerInfo) :
    decodePeerInfoTag (encodePeerInfoTag info) = Except.ok info := by
  have l1 : alookup (encodePeerInfoTag info) "name" = some info.name := rfl
  have l2 : alookup (encodePeerInfoTag info) PeerTypeTag = some info.peerType.val := rfl
  have l3 : alookup (encodePeerInfoTag info) "api_port" = some (itoa info.apiPort) := rfl
  have l4 : alookup (encodePeerInfoTag info) "api_addr" = some info.apiAddr := rfl
  unfold decodePeerInfoTag
  rw [l1, l2, l3, l4]
  dsimp only
  rw [atoi_itoa]

/-- C4 (witness): updating a key in the empty registry fails and
leaves the state unchanged. -/
theorem claim_C4_witness : (emptyReg.updateKey isoKeyA).1 = emptyReg :=
  (claim_C4_update_precondition_atomicity emptyReg isoKeyA).2.2 (by decide)

/-- C6 (witness): removing the only entry of category b evicts its
address from ring, hashes and keys. -/
theorem claim_C6_witness :
    ∃ ring', (isoBase.removeKey isoKeyB).1.hashRings isoKeyB.type = some ring' ∧
      ring'.contains isoKeyB.address = false ∧
      (((isoBase.removeKey isoKeyB).1.info isoKeyB.type).2 = true) ∧
      isoKeyB.address ∉ (((isoBase.removeKey isoKeyB).1.info isoKeyB.type).1.hashes.map Prod.snd) ∧
      isoKeyB.address ∉ (((isoBase.removeKey isoKeyB).1.info isoKeyB.type).1.keys.map Prod.fst) :=
  claim_C6_full_eviction_on_remove isoBase isoKeyB isoRing rfl

/-- C7 (witness): querying an absent category reports not-found. -/
theorem claim_C7_witness : ((emptyReg.info "nope").2 = false) :=
  ((claim_C7_info_not_found_collapse emptyReg "nope").2.1).mpr rfl

/-- C9 (witness): an address with no index entries has no binding in
the reported keys. -/
theorem claim_C9_witness : alookup (isoBase.info "b").1.keys "zzz" = none :=
  (claim_C9_no_empty_keys isoBase "b" isoRing rfl).1 "zzz" (by decide)

end Alchemy
